import Mathlib

/-
Verification of the promotion execution engine of the kargo repository.

This file gives a shallow embedding, in Lean 4, of:
  * the desired-revision resolver (internal/argocd/revision.go,
    GetDesiredRevisions),
  * the Bookkeeper promotion mechanism (internal/controller/promotion,
    Promote / doSingleUpdate),
  * the git-push step configuration schema
    (internal/directives/schemas, GitPushConfig),
  * the chart version diffing helper of the helm-update-chart directive
    (compareChartVersions),
and proves, or refutes, the behavioural claims made in the repository's
specification.

Collaborators that live outside the embedded files (the freight matchers
FindChart / FindCommit, GetDesiredOrigin, deep-copy of the stage state, the
render service, credential lookup, getReadRef) are either modelled from the
specification (marked as such in their doc comments) or kept as explicit
function parameters, mirroring the overridable function fields of the Go
structs.
-/

namespace Kargo

/-! ## Data model of the desired-revision resolver (internal/argocd/revision.go) -/

/-- One deployment source of an Argo CD Application: a repo URL together with
an optional Helm chart name (a non-empty chart name means this is a Helm
source). Mirrors argocd.ApplicationSource restricted to the fields read by
GetDesiredRevisions. -/
structure ApplicationSource where
  repoURL : String
  chart : String
  deriving DecidableEq

/-- The spec of an Argo CD Application: an optional single source and an
optional list of sources. Mirrors argocd.ApplicationSpec restricted to the
fields read by GetDesiredRevisions. Go nil pointers and nil slices are
modelled as none. -/
structure ApplicationSpec where
  source : Option ApplicationSource
  sources : Option (List ApplicationSource)
  deriving DecidableEq

/-- An Argo CD Application, restricted to the fields read by
GetDesiredRevisions. -/
structure Application where
  spec : ApplicationSpec
  deriving DecidableEq

/-- A freight origin: a producer identity (kind and name). Mirrors
kargoapi.FreightOrigin. -/
structure FreightOrigin where
  kind : String
  name : String
  deriving DecidableEq

/-- A chart artifact inside a freight reference. Mirrors kargoapi.Chart. -/
structure Chart where
  repoURL : String
  name : String
  version : String
  deriving DecidableEq

/-- A commit artifact inside a freight reference. Mirrors kargoapi.GitCommit
as consumed by the resolver: repo URL, commit ID and the optional
HealthCheckCommit override (empty string means unset). -/
structure Commit where
  repoURL : String
  id : String
  healthCheckCommit : String
  deriving DecidableEq

/-- One freight reference: artifacts produced by one origin. Mirrors
kargoapi.FreightReference restricted to the fields read by the matchers. -/
structure FreightReference where
  origin : FreightOrigin
  commits : List Commit
  charts : List Chart
  deriving DecidableEq

/-- A per-source update override of an ArgoCDAppUpdate. Mirrors
kargoapi.ArgoCDSourceUpdate: the (RepoURL[, Chart]) key it matches, plus the
origin policy it carries (modelled as an optional exact origin; none means
unconstrained, per the specification's tagged-variant reading of the
dynamically typed promotion mechanism). -/
structure ArgoCDSourceUpdate where
  repoURL : String
  chart : String
  origin : Option FreightOrigin
  deriving DecidableEq

/-- The promotion-wide update for one Argo CD application. Mirrors
kargoapi.ArgoCDAppUpdate: its per-source overrides plus the stage-wide
default origin policy it carries. -/
structure ArgoCDAppUpdate where
  sourceUpdates : List ArgoCDSourceUpdate
  origin : Option FreightOrigin
  deriving DecidableEq

/-- A Git repo update of the stage's promotion mechanisms, as consumed by the
Bookkeeper mechanism: repo URL, write branch, and whether it carries a
Bookkeeper configuration (Go: Bookkeeper != nil). -/
structure GitRepoUpdate where
  repoURL : String
  writeBranch : String
  hasBookkeeper : Bool
  deriving DecidableEq

/-- The stage, restricted to the data the embedded functions read: the origins
of its freight requests (used by the artifact matchers when the origin policy
is unconstrained), its namespace, and the Git repo updates of its promotion
mechanisms. -/
structure Stage where
  requestedOrigins : List FreightOrigin
  namespace_ : String
  gitRepoUpdates : List GitRepoUpdate
  deriving DecidableEq

/-- The dynamically typed promotion mechanism handed to GetDesiredOrigin:
either a per-source update override or the promotion-wide app update. -/
inductive PromoMechanism where
  | sourceUpdate (su : ArgoCDSourceUpdate)
  | appUpdate (u : ArgoCDAppUpdate)
  deriving DecidableEq

/-- Modelled from the spec: freight.GetDesiredOrigin is not part of the
provided sources. Per the specification, the resolver uses the matched
override's origin policy when an override matched, and otherwise the
stage-wide default origin policy carried by the promotion-wide update. -/
def GetDesiredOrigin (_stage : Stage) (mech : PromoMechanism) : Option FreightOrigin :=
  match mech with
  | .sourceUpdate su => su.origin
  | .appUpdate u => u.origin

/-- Decides whether a freight reference is selected by an origin policy:
an exact origin policy selects exactly that origin; an unconstrained policy
selects any of the stage's requested origins. -/
def freightSelected (stage : Stage) (pol : Option FreightOrigin) (fr : FreightReference) : Bool :=
  match pol with
  | some o => decide (fr.origin = o)
  | none => decide (fr.origin ∈ stage.requestedOrigins)

/-- Scan a chart list for an exact (repoURL, name) match. -/
def findChartInList (repoURL chartName : String) : List Chart → Option Chart
  | [] => none
  | c :: cs =>
    if c.repoURL = repoURL ∧ c.name = chartName then some c
    else findChartInList repoURL chartName cs

/-- Scan a commit list for an exact repoURL match. -/
def findCommitInList (repoURL : String) : List Commit → Option Commit
  | [] => none
  | c :: cs =>
    if c.repoURL = repoURL then some c
    else findCommitInList repoURL cs

/-- Scan the selected freight references for a chart. -/
def findChartInFreight (repoURL chartName : String) : List FreightReference → Option Chart
  | [] => none
  | fr :: rest =>
    match findChartInList repoURL chartName fr.charts with
    | some c => some c
    | none => findChartInFreight repoURL chartName rest

/-- Scan the selected freight references for a commit. -/
def findCommitInFreight (repoURL : String) : List FreightReference → Option Commit
  | [] => none
  | fr :: rest =>
    match findCommitInList repoURL fr.commits with
    | some c => some c
    | none => findCommitInFreight repoURL rest

/-- Modelled from the spec: freight.FindChart is not part of the provided
sources. Per the specification it filters the freight to the entries selected
by the origin policy and scans each entry's chart list for an exact
(repoURL, chartName) match, returning none (not an error) when nothing
matches. -/
def FindChart (stage : Stage) (desiredOrigin : Option FreightOrigin)
    (frght : List FreightReference) (repoURL chartName : String) : Option Chart :=
  findChartInFreight repoURL chartName (frght.filter (freightSelected stage desiredOrigin))

/-- Modelled from the spec: freight.FindCommit is not part of the provided
sources. Per the specification it filters the freight to the entries selected
by the origin policy and scans each entry's commit list for an exact repoURL
match, returning none (not an error) when nothing matches. -/
def FindCommit (stage : Stage) (desiredOrigin : Option FreightOrigin)
    (frght : List FreightReference) (repoURL : String) : Option Commit :=
  findCommitInFreight repoURL (frght.filter (freightSelected stage desiredOrigin))

/-! ## String helpers used by the resolver -/

/-- Check whether one character list starts with another. -/
def listStartsWith : List Char → List Char → Bool
  | _, [] => true
  | [], _ :: _ => false
  | c :: cs, p :: ps => c = p && listStartsWith cs ps

/-- Check whether a character list contains another as a contiguous run. -/
def listContainsSeq : List Char → List Char → Bool
  | [], pat => pat.isEmpty
  | c :: cs, pat => listStartsWith (c :: cs) pat || listContainsSeq cs pat

/-- Embedding of Go's strings.Contains. -/
def strContains (s pat : String) : Bool :=
  listContainsSeq s.toList pat.toList

/-- Embedding of Go's strings.TrimSuffix(s, "/"). -/
def trimSlash (s : String) : String :=
  match s.toList.getLast? with
  | some '/' => String.mk s.toList.dropLast
  | _ => s

/-! ## The resolver (GetDesiredRevisions) -/

/-- First source update whose repoURL and chart both equal the source's
key, mirroring the Go loop with break in the Helm branch of
GetDesiredRevisions. -/
def findSourceUpdateHelm (s : ApplicationSource) : List ArgoCDSourceUpdate → Option ArgoCDSourceUpdate
  | [] => none
  | su :: rest =>
    if su.repoURL = s.repoURL ∧ su.chart = s.chart then some su
    else findSourceUpdateHelm s rest

/-- First source update whose repoURL equals the source's, mirroring the Go
loop with break in the Git branch of GetDesiredRevisions. -/
def findSourceUpdateGit (s : ApplicationSource) : List ArgoCDSourceUpdate → Option ArgoCDSourceUpdate
  | [] => none
  | su :: rest =>
    if su.repoURL = s.repoURL then some su
    else findSourceUpdateGit s rest

/-- The origin policy the resolver uses for a Helm source: the first matching
source update override if any, otherwise the promotion-wide update. -/
def desiredOriginHelm (stage : Stage) (update : ArgoCDAppUpdate) (s : ApplicationSource) :
    Option FreightOrigin :=
  match findSourceUpdateHelm s update.sourceUpdates with
  | some su => GetDesiredOrigin stage (.sourceUpdate su)
  | none => GetDesiredOrigin stage (.appUpdate update)

/-- The origin policy the resolver uses for a Git source: the first matching
source update override if any, otherwise the promotion-wide update. -/
def desiredOriginGit (stage : Stage) (update : ArgoCDAppUpdate) (s : ApplicationSource) :
    Option FreightOrigin :=
  match findSourceUpdateGit s update.sourceUpdates with
  | some su => GetDesiredOrigin stage (.sourceUpdate su)
  | none => GetDesiredOrigin stage (.appUpdate update)

/-- OCI normalization performed by the Helm branch of GetDesiredRevisions on
the (repoURL, chartName) pair it is about to look up: when the repo URL has
no protocol scheme, fold the chart name into an oci:// path (trimming a
trailing slash from the URL first) and clear the chart name. -/
def normalizeChartRef (repoURL chartName : String) : String × String :=
  if strContains repoURL "://" then (repoURL, chartName)
  else ("oci://" ++ trimSlash repoURL ++ "/" ++ chartName, "")

/-- The result of GetDesiredRevisions: either the revision list (paired, in
Go, with a nil error; the modelled matchers are pure, so no non-panic error
path is reachable), or the runtime panic the Go code hits when the Helm
branch dereferences a nil app.Spec.Source. -/
inductive ResolveResult where
  | panicNilDeref
  | ok (revisions : List String)
  deriving DecidableEq

/-- The loop body of GetDesiredRevisions over the application's sources,
threading the accumulated revisions list. NB: faithfully to the Go source,
the Helm branch reads the repo URL and chart name from app.Spec.Source (the
singular source field) rather than from the iterated source, while both
override matching and the Git branch use the iterated source. -/
def resolveLoop (stage : Stage) (update : ArgoCDAppUpdate) (a : Application)
    (frght : List FreightReference) : List ApplicationSource → List String → ResolveResult
  | [], revisions => .ok revisions
  | source :: rest, revisions =>
    if source.chart ≠ "" then
      -- Helm source branch.
      let desiredOrigin := desiredOriginHelm stage update source
      match a.spec.source with
      | none =>
        -- Go: repoURL := app.Spec.Source.RepoURL dereferences a nil pointer.
        .panicNilDeref
      | some appSource =>
        let nrm := normalizeChartRef appSource.repoURL appSource.chart
        match FindChart stage desiredOrigin frght nrm.1 nrm.2 with
        | none => resolveLoop stage update a frght rest (revisions ++ [""])
        | some chart => resolveLoop stage update a frght rest (revisions ++ [chart.version])
    else if source.repoURL ≠ "" then
      -- Git source branch.
      let desiredOrigin := desiredOriginGit stage update source
      match FindCommit stage desiredOrigin frght source.repoURL with
      | none => resolveLoop stage update a frght rest (revisions ++ [""])
      | some commit =>
        if commit.healthCheckCommit ≠ "" then
          resolveLoop stage update a frght rest (revisions ++ [commit.healthCheckCommit])
        else
          resolveLoop stage update a frght rest (revisions ++ [commit.id])
    else
      -- Neither a chart nor a repo URL: the source contributes nothing.
      resolveLoop stage update a frght rest revisions

/-- The source list GetDesiredRevisions iterates over: app.Spec.Sources when
non-nil, else the singleton of app.Spec.Source. -/
def appSources (a : Application) : List ApplicationSource :=
  match a.spec.sources with
  | some ss => ss
  | none =>
    match a.spec.source with
    | some s => [s]
    | none => []

/-- Embedding of GetDesiredRevisions (internal/argocd/revision.go). -/
def GetDesiredRevisions (stage : Stage) (update : ArgoCDAppUpdate)
    (app : Option Application) (frght : List FreightReference) : ResolveResult :=
  match app with
  | none => .ok []
  | some a =>
    if a.spec.source = none ∧ a.spec.sources = none then .ok []
    else resolveLoop stage update a frght (appSources a) []

/-! ## Scenario inputs for the end-to-end resolver claims -/

/-- Origin Warehouse/w1, the default origin of the end-to-end scenarios. -/
def originW1 : FreightOrigin := ⟨"Warehouse", "w1"⟩

/-- Origin Warehouse/w2, the override origin of the end-to-end scenarios. -/
def originW2 : FreightOrigin := ⟨"Warehouse", "w2"⟩

/-- The two-source application of the end-to-end scenario: a Helm source
(repo https://x, chart c) and a Git source (repo https://y); as is the case
for every multi-source Argo CD application, the singular source field is
unset. -/
def twoSourceApp : Application :=
  ⟨⟨none, some [⟨"https://x", "c"⟩, ⟨"https://y", ""⟩]⟩⟩

/-- The promotion-wide update of the end-to-end scenario: default origin
Warehouse/w1, and one override selecting origin Warehouse/w2 for the Git
source https://y. -/
def twoSourceUpdate : ArgoCDAppUpdate :=
  ⟨[⟨"https://y", "", some originW2⟩], some originW1⟩

/-- The stage of the end-to-end scenario, requesting both origins. -/
def twoSourceStage : Stage := ⟨[originW1, originW2], "", []⟩

/-- The freight of the end-to-end scenario: chart c at 1.2.3 under the
default origin Warehouse/w1, and commit abc123 (no HealthCheckCommit) under
Warehouse/w2. -/
def twoSourceFreight : List FreightReference :=
  [⟨originW1, [], [⟨"https://x", "c", "1.2.3"⟩]⟩,
   ⟨originW2, [⟨"https://y", "abc123", ""⟩], []⟩]

/-- C1: on the two-source scenario the specification promises the revision
list ["1.2.3", "abc123"]; the code instead dereferences the nil
app.Spec.Source field in its Helm branch and panics, because that branch
reads the repo URL and chart name from app.Spec.Source rather than from the
iterated source. -/
theorem getDesiredRevisions_two_source_scenario_panics :
    GetDesiredRevisions twoSourceStage twoSourceUpdate (some twoSourceApp) twoSourceFreight =
      .panicNilDeref ∧
    GetDesiredRevisions twoSourceStage twoSourceUpdate (some twoSourceApp) twoSourceFreight ≠
      .ok ["1.2.3", "abc123"] := by
  constructor
  · rfl
  · decide

/-- The single-Helm-source application exposing the wrong-source lookup: the
iterated source is (example.com/charts, mychart), while the singular source
field holds different coordinates (other.example.com, otherchart). -/
def wrongSourceApp : Application :=
  ⟨⟨some ⟨"other.example.com", "otherchart"⟩, some [⟨"example.com/charts", "mychart"⟩]⟩⟩

/-- The update for the wrong-source scenario: no overrides, default origin
Warehouse/w1. -/
def wrongSourceUpdate : ArgoCDAppUpdate := ⟨[], some originW1⟩

/-- The stage for the wrong-source scenario. -/
def wrongSourceStage : Stage := ⟨[originW1], "", []⟩

/-- The freight for the wrong-source scenario: it contains, under the default
origin, both the chart the iterated source denotes (version 9.9.9) and the
chart app.Spec.Source denotes (version 5.5.5). -/
def wrongSourceFreight : List FreightReference :=
  [⟨originW1, [],
    [⟨"oci://example.com/charts/mychart", "", "9.9.9"⟩,
     ⟨"oci://other.example.com/otherchart", "", "5.5.5"⟩]⟩]

/-- C3: the claim says every schemeless Helm source is looked up under its own
repo URL rewritten to an oci:// path with the chart name folded in; on this
input that lookup (oci://example.com/charts/mychart) would find version
9.9.9, but the code instead performs the lookup with app.Spec.Source's
coordinates and returns 5.5.5. -/
theorem helm_lookup_uses_app_spec_source :
    GetDesiredRevisions wrongSourceStage wrongSourceUpdate (some wrongSourceApp)
      wrongSourceFreight = .ok ["5.5.5"] ∧
    normalizeChartRef "example.com/charts" "mychart" =
      ("oci://example.com/charts/mychart", "") ∧
    FindChart wrongSourceStage (some originW1) wrongSourceFreight
      "oci://example.com/charts/mychart" "" = some ⟨"oci://example.com/charts/mychart", "", "9.9.9"⟩ := by
  refine ⟨rfl, ?_, rfl⟩
  decide

/-! ## Override selection (claim C5) -/

/-- The Helm override scan equals a first-match search over the source
updates keyed by repo URL and chart. -/
theorem findSourceUpdateHelm_eq (s : ApplicationSource) (l : List ArgoCDSourceUpdate) :
    findSourceUpdateHelm s l =
      l.find? (fun su => decide (su.repoURL = s.repoURL ∧ su.chart = s.chart)) := by
  induction l with
  | nil => rfl
  | cons su rest ih =>
    by_cases h : su.repoURL = s.repoURL ∧ su.chart = s.chart
    · simp [findSourceUpdateHelm, List.find?, h]
    · simp [findSourceUpdateHelm, List.find?, h, ih]

/-- The Git override scan equals a first-match search over the source updates
keyed by repo URL. -/
theorem findSourceUpdateGit_eq (s : ApplicationSource) (l : List ArgoCDSourceUpdate) :
    findSourceUpdateGit s l = l.find? (fun su => decide (su.repoURL = s.repoURL)) := by
  induction l with
  | nil => rfl
  | cons su rest ih =>
    by_cases h : su.repoURL = s.repoURL
    · simp [findSourceUpdateGit, List.find?, h]
    · simp [findSourceUpdateGit, List.find?, h, ih]

/-- C5: for both source kinds, the effective origin policy comes from the
first source update override whose repo URL (and, for a Helm source, chart
name) exactly equals the source's, and from the promotion-wide update's
stage-wide default origin policy when no override matches. -/
theorem desiredOrigin_first_override_else_default
    (stage : Stage) (update : ArgoCDAppUpdate) (s : ApplicationSource) :
    desiredOriginHelm stage update s =
      (match update.sourceUpdates.find?
          (fun su => decide (su.repoURL = s.repoURL ∧ su.chart = s.chart)) with
       | some su => su.origin
       | none => update.origin) ∧
    desiredOriginGit stage update s =
      (match update.sourceUpdates.find? (fun su => decide (su.repoURL = s.repoURL)) with
       | some su => su.origin
       | none => update.origin) := by
  constructor
  · simp only [desiredOriginHelm, GetDesiredOrigin, findSourceUpdateHelm_eq]
  · simp only [desiredOriginGit, GetDesiredOrigin, findSourceUpdateGit_eq]

/-! ## Shape of the revision list (claim C2) -/

/-- A source is classifiable when it carries a chart name or, failing that, a
repo URL. -/
def classifiableSource (s : ApplicationSource) : Bool :=
  decide (s.chart ≠ "") || decide (s.repoURL ≠ "")

/-- Per-source characterization of the resolver's contribution to the
revision list: none for an unclassifiable source, and otherwise exactly the
revision the loop body computes, with the empty string standing for an absent
match. For a Helm source the lookup coordinates come from app.Spec.Source,
faithfully to the code. The value chosen in the nil app.Spec.Source case is
irrelevant: the resolver panics there instead of returning a list. -/
def resolveOneSpec (stage : Stage) (update : ArgoCDAppUpdate) (a : Application)
    (frght : List FreightReference) (source : ApplicationSource) : Option String :=
  if source.chart ≠ "" then
    let desiredOrigin := desiredOriginHelm stage update source
    match a.spec.source with
    | none => some ""
    | some appSource =>
      let nrm := normalizeChartRef appSource.repoURL appSource.chart
      match FindChart stage desiredOrigin frght nrm.1 nrm.2 with
      | none => some ""
      | some chart => some chart.version
  else if source.repoURL ≠ "" then
    let desiredOrigin := desiredOriginGit stage update source
    match FindCommit stage desiredOrigin frght source.repoURL with
    | none => some ""
    | some commit =>
      if commit.healthCheckCommit ≠ "" then some commit.healthCheckCommit
      else some commit.id
  else none

/-- The per-source contribution is present exactly for classifiable sources. -/
theorem resolveOneSpec_isSome (stage : Stage) (update : ArgoCDAppUpdate) (a : Application)
    (frght : List FreightReference) (source : ApplicationSource) :
    (resolveOneSpec stage update a frght source).isSome = classifiableSource source := by
  unfold resolveOneSpec classifiableSource
  by_cases hc : source.chart ≠ ""
  · rw [if_pos hc]
    have hrhs : (decide (source.chart ≠ "") || decide (source.repoURL ≠ "")) = true := by
      simp [hc]
    rw [hrhs]
    cases a.spec.source with
    | none => rfl
    | some appSource =>
      cases h : FindChart stage (desiredOriginHelm stage update source) frght
          (normalizeChartRef appSource.repoURL appSource.chart).1
          (normalizeChartRef appSource.repoURL appSource.chart).2 with
      | none => simp [h]
      | some chart => simp [h]
  · rw [if_neg hc]
    by_cases hr : source.repoURL ≠ ""
    · rw [if_pos hr]
      have hrhs : (decide (source.chart ≠ "") || decide (source.repoURL ≠ "")) = true := by
        simp [hr]
      rw [hrhs]
      cases h : FindCommit stage (desiredOriginGit stage update source) frght source.repoURL with
      | none => simp [h]
      | some commit =>
        by_cases hh : commit.healthCheckCommit ≠ "" <;> simp [h, hh]
    · rw [if_neg hr]
      simp [not_not.mp hc, not_not.mp hr]

/-- Value of the per-source contribution for a Helm source when the singular
source field is set. -/
theorem resolveOneSpec_helm (stage : Stage) (update : ArgoCDAppUpdate) (a : Application)
    (frght : List FreightReference) (source appSource : ApplicationSource)
    (hc : source.chart ≠ "") (hsrc : a.spec.source = some appSource) :
    resolveOneSpec stage update a frght source =
      some (match FindChart stage (desiredOriginHelm stage update source) frght
          (normalizeChartRef appSource.repoURL appSource.chart).1
          (normalizeChartRef appSource.repoURL appSource.chart).2 with
        | none => ""
        | some chart => chart.version) := by
  unfold resolveOneSpec
  rw [if_pos hc]
  simp only [hsrc]
  cases h2 : FindChart stage (desiredOriginHelm stage update source) frght
      (normalizeChartRef appSource.repoURL appSource.chart).1
      (normalizeChartRef appSource.repoURL appSource.chart).2 <;> simp [h2]

/-- Value of the per-source contribution for a Git source. -/
theorem resolveOneSpec_git (stage : Stage) (update : ArgoCDAppUpdate) (a : Application)
    (frght : List FreightReference) (source : ApplicationSource)
    (hc : ¬ source.chart ≠ "") (hr : source.repoURL ≠ "") :
    resolveOneSpec stage update a frght source =
      some (match FindCommit stage (desiredOriginGit stage update source) frght
          source.repoURL with
        | none => ""
        | some commit =>
          if commit.healthCheckCommit ≠ "" then commit.healthCheckCommit else commit.id) := by
  unfold resolveOneSpec
  rw [if_neg hc, if_pos hr]
  cases h2 : FindCommit stage (desiredOriginGit stage update source) frght source.repoURL with
  | none => simp [h2]
  | some commit =>
    simp only [h2]
    split <;> simp

/-- An unclassifiable source contributes nothing. -/
theorem resolveOneSpec_skip (stage : Stage) (update : ArgoCDAppUpdate) (a : Application)
    (frght : List FreightReference) (source : ApplicationSource)
    (hc : ¬ source.chart ≠ "") (hr : ¬ source.repoURL ≠ "") :
    resolveOneSpec stage update a frght source = none := by
  unfold resolveOneSpec
  rw [if_neg hc, if_neg hr]

/-- When the resolver loop returns a list, that list is the accumulator
followed by the per-source contributions of the remaining sources, in input
order. -/
theorem resolveLoop_ok_eq (stage : Stage) (update : ArgoCDAppUpdate) (a : Application)
    (frght : List FreightReference) :
    ∀ (ss : List ApplicationSource) (acc revs : List String),
      resolveLoop stage update a frght ss acc = .ok revs →
      revs = acc ++ ss.filterMap (resolveOneSpec stage update a frght) := by
  intro ss
  induction ss with
  | nil =>
    intro acc revs h
    simp only [resolveLoop] at h
    cases h
    simp
  | cons source rest ih =>
    intro acc revs h
    simp only [resolveLoop] at h
    by_cases hc : source.chart ≠ ""
    · rw [if_pos hc] at h
      cases hsrc : a.spec.source with
      | none =>
        simp only [hsrc] at h
        exact ResolveResult.noConfusion h
      | some appSource =>
        simp only [hsrc] at h
        have hone := resolveOneSpec_helm stage update a frght source appSource hc hsrc
        cases hfc : FindChart stage (desiredOriginHelm stage update source) frght
            (normalizeChartRef appSource.repoURL appSource.chart).1
            (normalizeChartRef appSource.repoURL appSource.chart).2 with
        | none =>
          simp only [hfc] at h hone
          have hrec := ih (acc ++ [""]) revs h
          simp only [List.filterMap_cons, hone]
          simpa using hrec
        | some chart =>
          simp only [hfc] at h hone
          have hrec := ih (acc ++ [chart.version]) revs h
          simp only [List.filterMap_cons, hone]
          simpa using hrec
    · rw [if_neg hc] at h
      by_cases hr : source.repoURL ≠ ""
      · rw [if_pos hr] at h
        have hone := resolveOneSpec_git stage update a frght source hc hr
        cases hfc : FindCommit stage (desiredOriginGit stage update source) frght
            source.repoURL with
        | none =>
          simp only [hfc] at h hone
          have hrec := ih (acc ++ [""]) revs h
          simp only [List.filterMap_cons, hone]
          simpa using hrec
        | some commit =>
          simp only [hfc] at h hone
          by_cases hh : commit.healthCheckCommit ≠ ""
          · rw [if_pos hh] at h
            rw [if_pos hh] at hone
            have hrec := ih (acc ++ [commit.healthCheckCommit]) revs h
            simp only [List.filterMap_cons, hone]
            simpa using hrec
          · rw [if_neg hh] at h
            rw [if_neg hh] at hone
            have hrec := ih (acc ++ [commit.id]) revs h
            simp only [List.filterMap_cons, hone]
            simpa using hrec
      · rw [if_neg hr] at h
        have hrec := ih acc revs h
        have hone := resolveOneSpec_skip stage update a frght source hc hr
        simp only [List.filterMap_cons, hone]
        simpa using hrec

/-- Length of a filterMap whose presence coincides with a Boolean filter. -/
theorem length_filterMap_eq_length_filter {α β : Type} (f : α → Option β) (p : α → Bool)
    (hfp : ∀ a, (f a).isSome = p a) : ∀ l : List α, (l.filterMap f).length = (l.filter p).length := by
  intro l
  induction l with
  | nil => rfl
  | cons a rest ih =>
    cases hfa : f a with
    | none =>
      have hpa : p a = false := by rw [← hfp a, hfa]; rfl
      simp [List.filterMap_cons, hfa, hpa, ih]
    | some b =>
      have hpa : p a = true := by rw [← hfp a, hfa]; rfl
      simp [List.filterMap_cons, hfa, hpa, ih]

/-- C2: whenever the resolver returns a revision list, that list has exactly
one entry per classifiable source, in input order, with the empty string as
the explicit placeholder produced whenever the lookup the loop performs for a
classifiable source finds no artifact; no classifiable source is omitted. -/
theorem getDesiredRevisions_one_entry_per_classifiable_source
    (stage : Stage) (update : ArgoCDAppUpdate) (a : Application)
    (frght : List FreightReference) (revs : List String)
    (h : GetDesiredRevisions stage update (some a) frght = .ok revs) :
    revs = (appSources a).filterMap (resolveOneSpec stage update a frght) ∧
    revs.length = ((appSources a).filter classifiableSource).length := by
  have hrevs : revs = (appSources a).filterMap (resolveOneSpec stage update a frght) := by
    simp only [GetDesiredRevisions] at h
    by_cases hg : a.spec.source = none ∧ a.spec.sources = none
    · rw [if_pos hg] at h
      cases h
      simp [appSources, hg.1, hg.2]
    · rw [if_neg hg] at h
      have := resolveLoop_ok_eq stage update a frght (appSources a) [] revs h
      simpa using this
  refine ⟨hrevs, ?_⟩
  rw [hrevs]
  exact length_filterMap_eq_length_filter _ _
    (resolveOneSpec_isSome stage update a frght) (appSources a)

/-- Witness for C2 at a concrete input: a single Git source with no matching
freight yields exactly the one-element placeholder list. -/
theorem getDesiredRevisions_one_entry_witness :
    ([""] : List String) =
      (appSources ⟨⟨none, some [⟨"https://y", ""⟩]⟩⟩).filterMap
        (resolveOneSpec ⟨[], "", []⟩ ⟨[], none⟩ ⟨⟨none, some [⟨"https://y", ""⟩]⟩⟩ []) ∧
    ([""] : List String).length =
      ((appSources ⟨⟨none, some [⟨"https://y", ""⟩]⟩⟩).filter classifiableSource).length :=
  getDesiredRevisions_one_entry_per_classifiable_source
    ⟨[], "", []⟩ ⟨[], none⟩ ⟨⟨none, some [⟨"https://y", ""⟩]⟩⟩ [] [""] (by decide)

/-- Counterexample to the literal reading of C2: a classifiable Helm source
(repo https://x, chart c) whose own artifact is absent from the freight
selected by its effective origin policy nevertheless contributes the
non-empty entry 7, because the code performs the lookup with
app.Spec.Source's coordinates (repo https://z, chart d), which are present
in the freight. -/
theorem classifiable_source_artifact_absent_but_nonempty_entry :
    classifiableSource ⟨"https://x", "c"⟩ = true ∧
    FindChart ⟨[⟨"Warehouse", "w1"⟩], "", []⟩
      (desiredOriginHelm ⟨[⟨"Warehouse", "w1"⟩], "", []⟩ ⟨[], some ⟨"Warehouse", "w1"⟩⟩
        ⟨"https://x", "c"⟩)
      [⟨⟨"Warehouse", "w1"⟩, [], [⟨"https://z", "d", "7"⟩]⟩] "https://x" "c" = none ∧
    GetDesiredRevisions ⟨[⟨"Warehouse", "w1"⟩], "", []⟩ ⟨[], some ⟨"Warehouse", "w1"⟩⟩
      (some ⟨⟨some ⟨"https://z", "d"⟩, some [⟨"https://x", "c"⟩]⟩⟩)
      [⟨⟨"Warehouse", "w1"⟩, [], [⟨"https://z", "d", "7"⟩]⟩] = .ok ["7"] ∧
    GetDesiredRevisions ⟨[⟨"Warehouse", "w1"⟩], "", []⟩ ⟨[], some ⟨"Warehouse", "w1"⟩⟩
      (some ⟨⟨some ⟨"https://z", "d"⟩, some [⟨"https://x", "c"⟩]⟩⟩)
      [⟨⟨"Warehouse", "w1"⟩, [], [⟨"https://z", "d", "7"⟩]⟩] ≠ .ok [""] := by
  refine ⟨rfl, rfl, rfl, ?_⟩
  decide

/-! ## HealthCheckCommit preference (claim C4) -/

/-- C4: for a Git source whose matched freight commit carries a non-empty
HealthCheckCommit, the resolver reports that value as the source's revision;
when HealthCheckCommit is empty it reports the commit's ID. -/
theorem gitSource_resolves_to_healthCheckCommit_or_id
    (stage : Stage) (update : ArgoCDAppUpdate) (frght : List FreightReference)
    (s : ApplicationSource) (c : Commit)
    (hchart : s.chart = "") (hrepo : s.repoURL ≠ "")
    (hfind : FindCommit stage (desiredOriginGit stage update s) frght s.repoURL = some c) :
    GetDesiredRevisions stage update (some ⟨⟨none, some [s]⟩⟩) frght =
      .ok [if c.healthCheckCommit ≠ "" then c.healthCheckCommit else c.id] := by
  have hc : ¬ (s.chart ≠ "") := by simp [hchart]
  have hstep : GetDesiredRevisions stage update (some ⟨⟨none, some [s]⟩⟩) frght =
      resolveLoop stage update ⟨⟨none, some [s]⟩⟩ frght [s] [] := by
    simp [GetDesiredRevisions, appSources]
  rw [hstep]
  simp only [resolveLoop]
  rw [if_neg hc, if_pos hrepo]
  simp only [hfind]
  by_cases hh : c.healthCheckCommit ≠ ""
  · rw [if_pos hh, if_pos hh]
    rfl
  · rw [if_neg hh, if_neg hh]
    rfl

/-- Witness for C4: the specification's own scenario, a matched commit with
HealthCheckCommit def456 resolving to def456 rather than the raw commit ID. -/
theorem gitSource_healthCheckCommit_witness :
    GetDesiredRevisions ⟨[⟨"Warehouse", "wit4"⟩], "", []⟩ ⟨[], some ⟨"Warehouse", "wit4"⟩⟩
      (some ⟨⟨none, some [⟨"https://wit4", ""⟩]⟩⟩)
      [⟨⟨"Warehouse", "wit4"⟩, [⟨"https://wit4", "abc123", "def456"⟩], []⟩] =
      .ok [if ("def456" : String) ≠ "" then "def456" else "abc123"] :=
  gitSource_resolves_to_healthCheckCommit_or_id
    ⟨[⟨"Warehouse", "wit4"⟩], "", []⟩ ⟨[], some ⟨"Warehouse", "wit4"⟩⟩
    [⟨⟨"Warehouse", "wit4"⟩, [⟨"https://wit4", "abc123", "def456"⟩], []⟩]
    ⟨"https://wit4", ""⟩ ⟨"https://wit4", "abc123", "def456"⟩
    (by decide) (by decide) (by decide)

/-! ## Bookkeeper promotion mechanism (internal promotion package)

The Go code mutates the Commits slice of the stage state in place; slices are
references into a heap, and Promote deep-copies the state before mutating.
The embedding makes this explicit: a heap is a list of commit slices, and a
stage state holds an index (a reference) into that heap. The mechanism's
collaborators (getReadRefFn, getCredentialsFn, renderManifestsFn,
doSingleUpdateFn) are overridable function fields of the Go struct and are
therefore kept as function parameters. -/

/-- A Git commit entry of the stage state, restricted to the field the
Bookkeeper mechanism writes. Mirrors api.GitCommit. -/
structure GitCommit where
  repoURL : String
  id : String
  healthCheckCommit : String
  deriving DecidableEq

/-- An image entry of the stage state. Mirrors api.Image as consumed by
Promote (repo URL and tag, formatted into strings). -/
structure Image where
  repoURL : String
  tag : String
  deriving DecidableEq

/-- The heap of commit slices: a stage state's Commits field is an index into
this heap, making Go slice aliasing explicit. -/
abbrev Heap := List (List GitCommit)

/-- The stage state as consumed by the Bookkeeper mechanism: a reference to
its commit slice, and its images. Mirrors api.StageState. -/
structure StageState where
  commitsRef : Nat
  images : List Image
  deriving DecidableEq

/-- Credentials returned by the credentials database. -/
structure Credentials where
  username : String
  password : String
  sshPrivateKey : String
  deriving DecidableEq

/-- Repository credentials of a Bookkeeper render request. -/
structure RepoCredentials where
  username : String
  password : String
  sshPrivateKey : String
  deriving DecidableEq

/-- A Bookkeeper render request, as built by doSingleUpdate. -/
structure RenderRequest where
  repoURL : String
  repoCreds : RepoCredentials
  ref : String
  images : List String
  targetBranch : String
  deriving DecidableEq

/-- The action reported by the Bookkeeper service. -/
inductive ActionTaken where
  | pushedDirectly
  | noneAction
  | openedPR
  deriving DecidableEq

/-- A Bookkeeper render response. -/
structure RenderResponse where
  actionTaken : ActionTaken
  commitID : String
  deriving DecidableEq

/-- Type of the getReadRefFn collaborator: from the update and the current
commit slice, the read ref and the positional commit index (-1 for none). -/
abbrev GetReadRefFn := GitRepoUpdate → List GitCommit → Except String (String × Int)

/-- Type of the getCredentialsFn collaborator: namespace and repo URL to
credentials plus a found flag. -/
abbrev GetCredentialsFn := String → String → Except String (Credentials × Bool)

/-- Type of the renderManifestsFn collaborator. -/
abbrev RenderManifestsFn := RenderRequest → Except String RenderResponse

/-- Type of the doSingleUpdateFn field of the mechanism: namespace, update,
heap, state and images to the updated heap and state plus an optional
error. -/
abbrev DoSingleUpdateFn :=
  String → GitRepoUpdate → Heap → StageState → List String → Heap × StageState × Option String

/-- Write the HealthCheckCommit field of the commit at a positional index. -/
def setHealthCheckCommit : List GitCommit → Nat → String → List GitCommit
  | [], _, _ => []
  | c :: cs, 0, cid => { c with healthCheckCommit := cid } :: cs
  | c :: cs, n + 1, cid => c :: setHealthCheckCommit cs n cid

/-- The repo credentials handed to the render request: the looked-up
credentials when found, empty otherwise. -/
def repoCredsOf (found : Bool) (creds : Credentials) : RepoCredentials :=
  if found then ⟨creds.username, creds.password, creds.sshPrivateKey⟩ else ⟨"", "", ""⟩

/-- Embedding of doSingleUpdate: determine the read ref and commit index,
resolve credentials, invoke the render collaborator, and on a direct push or
a no-changes outcome record the response's commit ID as the
HealthCheckCommit of the commit at the determined index; a pull-request
outcome is left unhandled. -/
def doSingleUpdate (getReadRefFn : GetReadRefFn) (getCredentialsFn : GetCredentialsFn)
    (renderManifestsFn : RenderManifestsFn) (namespace_ : String) (update : GitRepoUpdate)
    (heap : Heap) (newState : StageState) (images : List String) :
    Heap × StageState × Option String :=
  let commits := heap.getD newState.commitsRef []
  match getReadRefFn update commits with
  | .error e => (heap, newState, some e)
  | .ok (readRef, commitIndex) =>
    match getCredentialsFn namespace_ update.repoURL with
    | .error e =>
      (heap, newState,
        some ("error obtaining credentials for git repo " ++ update.repoURL ++ ": " ++ e))
    | .ok (creds, found) =>
      let req : RenderRequest :=
        ⟨update.repoURL, repoCredsOf found creds, readRef, images, update.writeBranch⟩
      match renderManifestsFn req with
      | .error e =>
        (heap, newState,
          some ("error rendering manifests for git repo " ++ update.repoURL ++
            " via Bookkeeper: " ++ e))
      | .ok res =>
        match res.actionTaken with
        | .pushedDirectly =>
          if commitIndex > -1 then
            (heap.set newState.commitsRef
              (setHealthCheckCommit commits commitIndex.toNat res.commitID), newState, none)
          else (heap, newState, none)
        | .noneAction =>
          if commitIndex > -1 then
            (heap.set newState.commitsRef
              (setHealthCheckCommit commits commitIndex.toNat res.commitID), newState, none)
          else (heap, newState, none)
        | .openedPR => (heap, newState, none)

/-- The loop of Promote over the Bookkeeper updates: thread the heap and
state, returning immediately with the partially updated state when a single
update reports an error. -/
def runUpdates (f : DoSingleUpdateFn) (namespace_ : String) (images : List String) :
    List GitRepoUpdate → Heap → StageState → Heap × StageState × Option String
  | [], heap, state => (heap, state, none)
  | u :: us, heap, state =>
    match f namespace_ u heap state images with
    | (h2, s2, some e) => (h2, s2, some e)
    | (h2, s2, none) => runUpdates f namespace_ images us h2 s2

/-- Modelled deep copy of the stage state (the generated DeepCopy of the API
types is not part of the provided sources): allocate a fresh copy of the
commit slice and point the state at it. -/
def deepCopyStageState (heap : Heap) (s : StageState) : Heap × StageState :=
  (heap ++ [heap.getD s.commitsRef []], { s with commitsRef := heap.length })

/-- The image strings Promote precomputes from the state. -/
def imagesOf (s : StageState) : List String :=
  s.images.map (fun i => i.repoURL ++ ":" ++ i.tag)

/-- Embedding of the Bookkeeper mechanism's Promote: filter the stage's Git
repo updates to those with a Bookkeeper configuration, return the input
unchanged when there are none, otherwise deep-copy the state and run the
updates in order. -/
def Promote (f : DoSingleUpdateFn) (stage : Stage) (heap : Heap) (newState : StageState) :
    Heap × StageState × Option String :=
  let updates := stage.gitRepoUpdates.filter (fun u => u.hasBookkeeper)
  if updates.isEmpty then (heap, newState, none)
  else
    let hs := deepCopyStageState heap newState
    runUpdates f stage.namespace_ (imagesOf hs.2) updates hs.1 hs.2

/-! ## Fail-fast error propagation in Promote (claim C6) -/

/-- Running the loop over a list that errors at a given update stops there:
the successfully threaded prefix is followed by the failing update's result,
and the suffix is never consulted. -/
theorem runUpdates_append_error (f : DoSingleUpdateFn) (ns : String) (imgs : List String)
    (u : GitRepoUpdate) (us2 : List GitRepoUpdate) (h2 : Heap) (s2 : StageState) (e : String) :
    ∀ (us1 : List GitRepoUpdate) (h : Heap) (s : StageState) (h1 : Heap) (s1 : StageState),
      runUpdates f ns imgs us1 h s = (h1, s1, none) →
      f ns u h1 s1 imgs = (h2, s2, some e) →
      runUpdates f ns imgs (us1 ++ u :: us2) h s = (h2, s2, some e) := by
  intro us1
  induction us1 with
  | nil =>
    intro h s h1 s1 hok herr
    simp only [runUpdates, Prod.mk.injEq] at hok
    obtain ⟨rfl, rfl, -⟩ := hok
    simp only [List.nil_append, runUpdates, herr]
  | cons v us1 ih =>
    intro h s h1 s1 hok herr
    simp only [runUpdates] at hok
    simp only [List.cons_append, runUpdates]
    cases hv : f ns v h s imgs with
    | mk hh rest =>
      cases rest with
      | mk ss ee =>
        rw [hv] at hok
        cases ee with
        | some err => simp at hok
        | none => exact ih hh ss h1 s1 hok herr

/-- C6: when a single-repo update errors, Promote returns that error together
with the state as updated so far and does not process the remaining
updates. -/
theorem promote_stops_at_first_error
    (f : DoSingleUpdateFn) (stage : Stage) (heap : Heap) (s : StageState)
    (us1 : List GitRepoUpdate) (u : GitRepoUpdate) (us2 : List GitRepoUpdate)
    (h1 : Heap) (s1 : StageState) (h2 : Heap) (s2 : StageState) (e : String)
    (hupd : stage.gitRepoUpdates.filter (fun x => x.hasBookkeeper) = us1 ++ u :: us2)
    (hok : runUpdates f stage.namespace_ (imagesOf (deepCopyStageState heap s).2) us1
      (deepCopyStageState heap s).1 (deepCopyStageState heap s).2 = (h1, s1, none))
    (herr : f stage.namespace_ u h1 s1 (imagesOf (deepCopyStageState heap s).2) =
      (h2, s2, some e)) :
    Promote f stage heap s = (h2, s2, some e) := by
  have hne : (us1 ++ u :: us2).isEmpty = false := by
    cases us1 <;> rfl
  simp only [Promote, hupd, hne, Bool.false_eq_true, if_false]
  exact runUpdates_append_error f stage.namespace_ _ u us2 h2 s2 e us1 _ _ h1 s1 hok herr

/-- Witness for C6 at a concrete input: a single Bookkeeper update whose
update function reports an error makes Promote return the error with the
deep-copied state. -/
theorem promote_stops_at_first_error_witness :
    Promote (fun _ _ h s _ => (h, s, some "boom")) ⟨[], "ns", [⟨"https://r", "env", true⟩]⟩
      [[⟨"https://r", "sha1", ""⟩]] ⟨0, []⟩ =
      ([[⟨"https://r", "sha1", ""⟩], [⟨"https://r", "sha1", ""⟩]], ⟨1, []⟩, some "boom") :=
  promote_stops_at_first_error (fun _ _ h s _ => (h, s, some "boom"))
    ⟨[], "ns", [⟨"https://r", "env", true⟩]⟩ [[⟨"https://r", "sha1", ""⟩]] ⟨0, []⟩
    [] ⟨"https://r", "env", true⟩ []
    [[⟨"https://r", "sha1", ""⟩], [⟨"https://r", "sha1", ""⟩]] ⟨1, []⟩
    [[⟨"https://r", "sha1", ""⟩], [⟨"https://r", "sha1", ""⟩]] ⟨1, []⟩ "boom"
    rfl rfl rfl

/-! ## HealthCheckCommit recording by doSingleUpdate (claim C7) -/

/-- C7: when the render collaborator reports a direct push or that no changes
were made, doSingleUpdate records the response's commit ID as the
HealthCheckCommit of the commit at the index previously determined by
getReadRef, and returns no error. -/
theorem doSingleUpdate_records_commit
    (g : GetReadRefFn) (c : GetCredentialsFn) (r : RenderManifestsFn)
    (ns : String) (u : GitRepoUpdate) (heap : Heap) (s : StageState) (imgs : List String)
    (readRef : String) (idx : Int) (creds : Credentials) (found : Bool) (res : RenderResponse)
    (hg : g u (heap.getD s.commitsRef []) = .ok (readRef, idx))
    (hidx : idx > -1)
    (hc : c ns u.repoURL = .ok (creds, found))
    (hr : r ⟨u.repoURL, repoCredsOf found creds, readRef, imgs, u.writeBranch⟩ = .ok res)
    (ha : res.actionTaken = .pushedDirectly ∨ res.actionTaken = .noneAction) :
    doSingleUpdate g c r ns u heap s imgs =
      (heap.set s.commitsRef
        (setHealthCheckCommit (heap.getD s.commitsRef []) idx.toNat res.commitID), s, none) := by
  simp only [doSingleUpdate, hg, hc, hr]
  cases ha with
  | inl h => rw [h, if_pos hidx]
  | inr h => rw [h, if_pos hidx]

/-- Witness for C7 at a concrete input: a direct push records newsha on the
commit at index 0. -/
theorem doSingleUpdate_records_commit_witness :
    doSingleUpdate (fun _ _ => .ok ("main", 0)) (fun _ _ => .ok (⟨"usr", "pw", "key"⟩, true))
      (fun _ => .ok ⟨.pushedDirectly, "newsha"⟩) "ns" ⟨"https://r", "env", true⟩
      [[⟨"https://r", "oldsha", ""⟩]] ⟨0, []⟩ [] =
      (([[⟨"https://r", "oldsha", ""⟩]] : Heap).set 0
        (setHealthCheckCommit [⟨"https://r", "oldsha", ""⟩] (Int.toNat 0) "newsha"),
        ⟨0, []⟩, none) :=
  doSingleUpdate_records_commit (fun _ _ => .ok ("main", 0))
    (fun _ _ => .ok (⟨"usr", "pw", "key"⟩, true)) (fun _ => .ok ⟨.pushedDirectly, "newsha"⟩)
    "ns" ⟨"https://r", "env", true⟩ [[⟨"https://r", "oldsha", ""⟩]] ⟨0, []⟩ []
    "main" 0 ⟨"usr", "pw", "key"⟩ true ⟨.pushedDirectly, "newsha"⟩
    rfl (by decide) rfl rfl (Or.inl rfl)

/-! ## Frame conditions of Promote (claim C10) -/

/-- One update step leaves the threaded state untouched and modifies at most
the heap slot the state references. -/
theorem doSingleUpdate_frame (g : GetReadRefFn) (c : GetCredentialsFn) (r : RenderManifestsFn)
    (ns : String) (u : GitRepoUpdate) (heap : Heap) (s : StageState) (imgs : List String) :
    (doSingleUpdate g c r ns u heap s imgs).2.1 = s ∧
    ∀ j, j ≠ s.commitsRef →
      ((doSingleUpdate g c r ns u heap s imgs).1).get? j = heap.get? j := by
  simp only [doSingleUpdate]
  cases hg : g u (heap.getD s.commitsRef []) with
  | error e => simp [hg]
  | ok pr =>
    obtain ⟨readRef, idx⟩ := pr
    simp only [hg]
    cases hc : c ns u.repoURL with
    | error e => simp [hc]
    | ok pc =>
      obtain ⟨creds, found⟩ := pc
      simp only [hc]
      cases hr : r ⟨u.repoURL, repoCredsOf found creds, readRef, imgs, u.writeBranch⟩ with
      | error e => simp [hr]
      | ok res =>
        simp only [hr]
        cases res.actionTaken with
        | pushedDirectly =>
          by_cases hidx : idx > -1
          · rw [if_pos hidx]
            refine ⟨rfl, fun j hj => ?_⟩
            exact List.get?_set_ne _ _ (fun hcontra => hj hcontra.symm)
          · rw [if_neg hidx]
            exact ⟨rfl, fun j hj => rfl⟩
        | noneAction =>
          by_cases hidx : idx > -1
          · rw [if_pos hidx]
            refine ⟨rfl, fun j hj => ?_⟩
            exact List.get?_set_ne _ _ (fun hcontra => hj hcontra.symm)
          · rw [if_neg hidx]
            exact ⟨rfl, fun j hj => rfl⟩
        | openedPR => exact ⟨rfl, fun j hj => rfl⟩

/-- The update loop keeps the state's commit reference fixed and modifies at
most that heap slot. -/
theorem runUpdates_frame (g : GetReadRefFn) (c : GetCredentialsFn) (r : RenderManifestsFn)
    (ns : String) (imgs : List String) :
    ∀ (us : List GitRepoUpdate) (heap : Heap) (s : StageState),
      (runUpdates (doSingleUpdate g c r) ns imgs us heap s).2.1.commitsRef = s.commitsRef ∧
      ∀ j, j ≠ s.commitsRef →
        ((runUpdates (doSingleUpdate g c r) ns imgs us heap s).1).get? j = heap.get? j := by
  intro us
  induction us with
  | nil => intro heap s; exact ⟨rfl, fun j hj => rfl⟩
  | cons u us ih =>
    intro heap s
    have hstep := doSingleUpdate_frame g c r ns u heap s imgs
    cases hv : doSingleUpdate g c r ns u heap s imgs with
    | mk hh rest =>
      cases rest with
      | mk ss ee =>
        rw [hv] at hstep
        have hss : ss = s := hstep.1
        have hheap : ∀ j, j ≠ s.commitsRef → hh.get? j = heap.get? j := hstep.2
        subst hss
        cases ee with
        | some err =>
          simp only [runUpdates, hv]
          exact ⟨trivial, hheap⟩
        | none =>
          simp only [runUpdates, hv]
          have hrec := ih hh ss
          refine ⟨hrec.1, fun j hj => ?_⟩
          rw [hrec.2 j hj]
          exact hheap j hj

/-- C10: with no Bookkeeper-configured updates, Promote returns its input
heap and state unchanged with no error; and when it does run (with the
concrete doSingleUpdate), every pre-existing heap slot — in particular the
caller's commit slice — is untouched, because the state is deep-copied to a
fresh slot before any mutation. -/
theorem promote_frame (f : DoSingleUpdateFn) (g : GetReadRefFn) (c : GetCredentialsFn)
    (r : RenderManifestsFn) (stage : Stage) (heap : Heap) (s : StageState) :
    (stage.gitRepoUpdates.filter (fun x => x.hasBookkeeper) = [] →
      Promote f stage heap s = (heap, s, none)) ∧
    (∀ j, j < heap.length →
      ((Promote (doSingleUpdate g c r) stage heap s).1).get? j = heap.get? j) := by
  constructor
  · intro hempty
    simp [Promote, hempty]
  · intro j hj
    by_cases hempty : (stage.gitRepoUpdates.filter (fun x => x.hasBookkeeper)).isEmpty
    · simp [Promote, hempty]
    · simp only [Promote, hempty, Bool.false_eq_true, if_false]
      have hfr := runUpdates_frame g c r stage.namespace_
        (imagesOf (deepCopyStageState heap s).2)
        (stage.gitRepoUpdates.filter (fun x => x.hasBookkeeper))
        (deepCopyStageState heap s).1 (deepCopyStageState heap s).2
      have hj2 : j ≠ (deepCopyStageState heap s).2.commitsRef := by
        simp only [deepCopyStageState]
        exact Nat.ne_of_lt hj
      rw [hfr.2 j hj2]
      simp only [deepCopyStageState]
      exact List.get?_append hj

/-- Witness for C10 at concrete inputs: a stage with no Bookkeeper updates is
a no-op, and with one Bookkeeper update the caller's commit slice at slot 0
is preserved. -/
theorem promote_frame_witness :
    Promote (fun _ _ h s _ => (h, s, none)) ⟨[], "ns", [⟨"https://r", "env", false⟩]⟩
      [[⟨"https://r", "sha1", ""⟩]] ⟨0, []⟩ =
      ([[⟨"https://r", "sha1", ""⟩]], ⟨0, []⟩, none) ∧
    ((Promote (doSingleUpdate (fun _ _ => .ok ("main", 0))
        (fun _ _ => .ok (⟨"usr", "pw", "key"⟩, true))
        (fun _ => .ok ⟨.pushedDirectly, "newsha"⟩))
      ⟨[], "ns", [⟨"https://r", "env", true⟩]⟩ [[⟨"https://r", "sha1", ""⟩]] ⟨0, []⟩).1).get? 0 =
      ([[⟨"https://r", "sha1", ""⟩]] : Heap).get? 0 :=
  ⟨(promote_frame (fun _ _ h s _ => (h, s, none)) (fun _ _ => .ok ("main", 0))
      (fun _ _ => .ok (⟨"usr", "pw", "key"⟩, true)) (fun _ => .ok ⟨.pushedDirectly, "newsha"⟩)
      ⟨[], "ns", [⟨"https://r", "env", false⟩]⟩ [[⟨"https://r", "sha1", ""⟩]] ⟨0, []⟩).1 rfl,
   (promote_frame (fun _ _ h s _ => (h, s, none)) (fun _ _ => .ok ("main", 0))
      (fun _ _ => .ok (⟨"usr", "pw", "key"⟩, true)) (fun _ => .ok ⟨.pushedDirectly, "newsha"⟩)
      ⟨[], "ns", [⟨"https://r", "env", true⟩]⟩ [[⟨"https://r", "sha1", ""⟩]] ⟨0, []⟩).2 0
      (by decide)⟩

/-! ## git-push configuration schema (claim C8)

Embedding of the GitPushConfig JSON schema
(internal/directives/schemas/git-push-config.json). A property of the raw
configuration document is absent (none), JSON null (some none), or a typed
value (some (some v)); additionalProperties is false, so no other keys
exist. -/

/-- A raw git-push step configuration document over the three properties the
GitPushConfig schema declares. -/
structure GitPushConfigDoc where
  generateTargetBranch : Option (Option Bool)
  path : Option (Option String)
  targetBranch : Option (Option String)
  deriving DecidableEq

/-- Property-level type keywords of the schema: a present
generateTargetBranch must be a boolean, present path and targetBranch must be
strings (JSON null fails the type keyword). -/
def gitPushTypeOK (d : GitPushConfigDoc) : Bool :=
  decide (d.generateTargetBranch ≠ some none) && decide (d.path ≠ some none) &&
    decide (d.targetBranch ≠ some none)

/-- The minLength 1 keyword, which applies only when the value is a string. -/
def minLength1IfStr : Option (Option String) → Bool
  | some (some s) => decide (1 ≤ s.length)
  | _ => true

/-- First oneOf branch of the schema: generateTargetBranch is required and
const true, and targetBranch is constrained to the empty string or null
(absence is also allowed, since the branch does not require it). -/
def gitPushBranchA (d : GitPushConfigDoc) : Bool :=
  decide (d.generateTargetBranch = some (some true)) &&
    decide (d.targetBranch = none ∨ d.targetBranch = some none ∨
      d.targetBranch = some (some ""))

/-- Second oneOf branch of the schema: targetBranch is required with
minLength 1, and generateTargetBranch is constrained to null or false
(absence is also allowed). -/
def gitPushBranchB (d : GitPushConfigDoc) : Bool :=
  decide (d.targetBranch ≠ none) && minLength1IfStr d.targetBranch &&
    decide (d.generateTargetBranch = none ∨ d.generateTargetBranch = some none ∨
      d.generateTargetBranch = some (some false))

/-- Embedding of the GitPushConfig schema: the property type keywords, the
required path of minLength 1, and (oneOf) exactly one of the two branches. -/
def gitPushConfigValid (d : GitPushConfigDoc) : Bool :=
  gitPushTypeOK d && decide (d.path ≠ none) && minLength1IfStr d.path &&
    ((gitPushBranchA d && !gitPushBranchB d) || (!gitPushBranchA d && gitPushBranchB d))

/-- C8: a configuration with generateTargetBranch true and a non-empty
targetBranch fails validation; and any configuration that passes validation
has exactly one of generateTargetBranch = true or a present non-empty
targetBranch. -/
theorem gitPushConfig_mutual_exclusion :
    gitPushConfigValid ⟨some (some true), some (some "p"), some (some "branch")⟩ = false ∧
    ∀ d : GitPushConfigDoc, gitPushConfigValid d = true →
      ((d.generateTargetBranch = some (some true) ∧
          ¬ ∃ s, d.targetBranch = some (some s) ∧ s ≠ "") ∨
        ((∃ s, d.targetBranch = some (some s) ∧ s ≠ "") ∧
          d.generateTargetBranch ≠ some (some true))) := by
  constructor
  · decide
  · intro d hv
    simp only [gitPushConfigValid, Bool.and_eq_true] at hv
    obtain ⟨⟨⟨htype, hpreq⟩, hpmin⟩, hone⟩ := hv
    simp only [gitPushTypeOK, Bool.and_eq_true, decide_eq_true_eq] at htype
    obtain ⟨⟨hgtype, hptype⟩, httype⟩ := htype
    simp only [Bool.or_eq_true, Bool.and_eq_true] at hone
    cases hone with
    | inl hA =>
      obtain ⟨hA, -⟩ := hA
      simp only [gitPushBranchA, Bool.and_eq_true, decide_eq_true_eq] at hA
      obtain ⟨hgt, htb⟩ := hA
      refine Or.inl ⟨hgt, ?_⟩
      rintro ⟨s, hs, hsne⟩
      rcases htb with h | h | h
      · rw [hs] at h; cases h
      · rw [hs] at h; cases h
      · rw [hs] at h
        injection h with h2
        injection h2 with h3
        exact hsne h3
    | inr hB =>
      obtain ⟨-, hB⟩ := hB
      simp only [gitPushBranchB, Bool.and_eq_true, decide_eq_true_eq] at hB
      obtain ⟨⟨htbne, htbmin⟩, hgtb⟩ := hB
      cases htb : d.targetBranch with
      | none => exact absurd htb htbne
      | some v =>
        cases v with
        | none => exact absurd htb httype
        | some s =>
          have hslen : 1 ≤ s.length := by
            rw [htb] at htbmin
            simpa [minLength1IfStr] using htbmin
          have hsne : s ≠ "" := by
            intro hcontra
            rw [hcontra] at hslen
            simp at hslen
          refine Or.inr ⟨⟨s, rfl, hsne⟩, ?_⟩
          rcases hgtb with h | h | h <;> rw [h] <;> intro hcontra
          · cases hcontra
          · injection hcontra with h2; cases h2
          · injection hcontra with h2
            injection h2 with h3
            cases h3

/-- Witness for C8: a valid configuration with only a non-empty targetBranch
lands in the targetBranch side of the exclusive disjunction. -/
theorem gitPushConfig_mutual_exclusion_witness :
    (((none : Option (Option Bool)) = some (some true) ∧
        ¬ ∃ s, (some (some "main") : Option (Option String)) = some (some s) ∧ s ≠ "") ∨
      ((∃ s, (some (some "main") : Option (Option String)) = some (some s) ∧ s ≠ "") ∧
        (none : Option (Option Bool)) ≠ some (some true))) :=
  gitPushConfig_mutual_exclusion.2 ⟨none, some (some "p"), some (some "main")⟩ (by decide)

/-! ## Chart version diffing of helm-update-chart (claim C9)

Go maps from chart name to version are embedded as association lists; the
key-uniqueness invariant of a Go map is carried as a Nodup hypothesis on the
key list. Map equality is pointwise lookup equality. -/

/-- Lookup of a name in a chart-version map. -/
def lookupVersion : List (String × String) → String → Option String
  | [], _ => none
  | p :: ps, k => if p.1 = k then some p.2 else lookupVersion ps k

/-- The key list of a chart-version map. -/
def keysOf (m : List (String × String)) : List String := m.map (fun p => p.1)

/-- Modelled from the spec: the implementation of compareChartVersions is not
part of the provided sources (only its test table in the directives test
file is). Per the specification's before/after version diff of
helm-update-chart, and exactly as pinned by Test_compareChartVersions: a
version change of a name present in both maps reports "old -> new", a name
only in after reports its version, and a name only in before reports the
empty string. -/
def compareChartVersions (before after : List (String × String)) :
    List (String × String) :=
  (before.filterMap (fun p =>
    match lookupVersion after p.1 with
    | none => some (p.1, "")
    | some av => if p.2 = av then none else some (p.1, p.2 ++ " -> " ++ av))) ++
  (after.filterMap (fun p =>
    match lookupVersion before p.1 with
    | some _ => none
    | none => some p))

/-- Remove every entry of a name from a map. -/
def eraseKey (k : String) : List (String × String) → List (String × String)
  | [] => []
  | p :: ps => if p.1 = k then eraseKey k ps else p :: eraseKey k ps

/-- Set the version of a name in a map, replacing an existing entry or
appending a fresh one. -/
def setKey (k v : String) : List (String × String) → List (String × String)
  | [] => [(k, v)]
  | p :: ps => if p.1 = k then (k, v) :: ps else p :: setKey k v ps

/-- The right-hand side of a reported "old -> new" entry, relative to the old
version it starts with: the characters after "old -> ". -/
def rhsOfEntry (oldV entry : String) : String :=
  String.mk (entry.data.drop (oldV.length + 4))

/-- Apply one reported delta to a map, per the claim: an empty-string entry
deletes the name, an entry for a name present in before replaces its version
with the right-hand side of the reported "old -> new", and an entry for a
fresh name inserts it at the reported version. -/
def applyOneChange (before m : List (String × String)) (c : String × String) :
    List (String × String) :=
  if c.2 = "" then eraseKey c.1 m
  else
    match lookupVersion before c.1 with
    | some oldV => setKey c.1 (rhsOfEntry oldV c.2) m
    | none => setKey c.1 c.2 m

/-- Apply a reported change-set to a map. -/
def applyChartChanges (before changes m : List (String × String)) :
    List (String × String) :=
  changes.foldl (applyOneChange before) m

/-- Lookup after erasing a name. -/
theorem lookupVersion_eraseKey (k : String) (m : List (String × String)) (j : String) :
    lookupVersion (eraseKey k m) j = if j = k then none else lookupVersion m j := by
  induction m with
  | nil => simp [eraseKey, lookupVersion]
  | cons p ps ih =>
    by_cases hpk : p.1 = k
    · by_cases hjk : j = k
      · subst hjk
        simp [eraseKey, hpk, ih]
      · have hkj : ¬ k = j := fun h => hjk h.symm
        simp [eraseKey, hpk, ih, hjk, lookupVersion, hkj]
    · by_cases hpj : p.1 = j
      · have hjk : ¬ j = k := fun h => hpk (by rw [hpj, h])
        simp [eraseKey, hpk, lookupVersion, hpj, hjk]
      · simp [eraseKey, hpk, lookupVersion, hpj, ih]

/-- Lookup after setting a name. -/
theorem lookupVersion_setKey (k v : String) (m : List (String × String)) (j : String) :
    lookupVersion (setKey k v m) j = if j = k then some v else lookupVersion m j := by
  induction m with
  | nil =>
    by_cases hjk : j = k
    · simp [setKey, lookupVersion, hjk]
    · have hkj : ¬ k = j := fun h => hjk h.symm
      simp [setKey, lookupVersion, hjk, hkj]
  | cons p ps ih =>
    by_cases hpk : p.1 = k
    · by_cases hjk : j = k
      · subst hjk
        simp [setKey, hpk, lookupVersion]
      · have hkj : ¬ k = j := fun h => hjk h.symm
        simp [setKey, hpk, lookupVersion, hjk, hkj]
    · by_cases hpj : p.1 = j
      · have hjk : ¬ j = k := fun h => hpk (by rw [hpj, h])
        simp [setKey, hpk, lookupVersion, hpj, hjk]
      · simp [setKey, hpk, lookupVersion, hpj, ih]

/-- Unfolding step of applyChartChanges. -/
theorem applyChartChanges_cons (before m : List (String × String)) (c : String × String)
    (cs : List (String × String)) :
    applyChartChanges before (c :: cs) m =
      applyChartChanges before cs (applyOneChange before m c) := rfl

/-- A name outside a change-set is untouched by applying it. -/
theorem lookupVersion_apply_not_mem (before : List (String × String)) :
    ∀ (cs m : List (String × String)) (k : String), k ∉ keysOf cs →
      lookupVersion (applyChartChanges before cs m) k = lookupVersion m k := by
  intro cs
  induction cs with
  | nil => intro m k _; rfl
  | cons c cs ih =>
    intro m k hk
    simp only [keysOf, List.map_cons, List.mem_cons, not_or] at hk
    obtain ⟨hk1, hk2⟩ := hk
    rw [applyChartChanges_cons]
    have hk2b : k ∉ keysOf cs := hk2
    rw [ih (applyOneChange before m c) k hk2b]
    unfold applyOneChange
    by_cases hc2 : c.2 = ""
    · rw [if_pos hc2, lookupVersion_eraseKey, if_neg hk1]
    · rw [if_neg hc2]
      cases hlv : lookupVersion before c.1 with
      | some oldV =>
        simp only [hlv]
        rw [lookupVersion_setKey, if_neg hk1]
      | none =>
        simp only [hlv]
        rw [lookupVersion_setKey, if_neg hk1]

/-- At a name a uniquely keyed change-set contains, applying the change-set
yields the claim's interpretation of that name's entry: deletion for the
empty string, replacement by the right-hand side when the name had an old
version, insertion otherwise. -/
theorem lookupVersion_apply_mem (before : List (String × String)) :
    ∀ (cs m : List (String × String)) (k e : String), (keysOf cs).Nodup → (k, e) ∈ cs →
      lookupVersion (applyChartChanges before cs m) k =
        (if e = "" then none
         else some (match lookupVersion before k with
           | some oldV => rhsOfEntry oldV e
           | none => e)) := by
  intro cs
  induction cs with
  | nil =>
    intro m k e _ hmem
    cases hmem
  | cons c cs ih =>
    intro m k e hnd hmem
    simp only [keysOf, List.map_cons, List.nodup_cons] at hnd
    obtain ⟨hc1, hnd2⟩ := hnd
    cases List.mem_cons.mp hmem with
    | inl heq =>
      subst heq
      have hknotin : k ∉ keysOf cs := hc1
      rw [applyChartChanges_cons,
        lookupVersion_apply_not_mem before cs (applyOneChange before m (k, e)) k hknotin]
      unfold applyOneChange
      dsimp only
      by_cases he : e = ""
      · rw [if_pos he, if_pos he, lookupVersion_eraseKey, if_pos rfl]
      · rw [if_neg he, if_neg he]
        cases hlv : lookupVersion before k with
        | some oldV =>
          simp only [hlv]
          rw [lookupVersion_setKey, if_pos rfl]
        | none =>
          simp only [hlv]
          rw [lookupVersion_setKey, if_pos rfl]
    | inr hmem2 =>
      have hknd : (keysOf cs).Nodup := hnd2
      rw [applyChartChanges_cons]
      exact ih (applyOneChange before m c) k e hknd hmem2

/-- A successful lookup comes from a map entry. -/
theorem mem_of_lookupVersion_eq_some :
    ∀ (m : List (String × String)) (k v : String),
      lookupVersion m k = some v → (k, v) ∈ m := by
  intro m
  induction m with
  | nil => intro k v h; cases h
  | cons p ps ih =>
    intro k v h
    rw [lookupVersion] at h
    by_cases hpk : p.1 = k
    · rw [if_pos hpk] at h
      injection h with h2
      have : p = (k, v) := by
        apply Prod.ext
        · exact hpk
        · exact h2
      rw [← this]
      exact List.mem_cons_self p ps
    · rw [if_neg hpk] at h
      exact List.mem_cons_of_mem p (ih k v h)

/-- A lookup fails exactly for names outside the key list. -/
theorem lookupVersion_eq_none_iff :
    ∀ (m : List (String × String)) (k : String),
      lookupVersion m k = none ↔ k ∉ keysOf m := by
  intro m
  induction m with
  | nil => intro k; simp [lookupVersion, keysOf]
  | cons p ps ih =>
    intro k
    rw [lookupVersion]
    by_cases hpk : p.1 = k
    · rw [if_pos hpk]
      simp [keysOf, hpk]
    · rw [if_neg hpk, ih k]
      simp only [keysOf, List.map_cons, List.mem_cons, not_or]
      exact ⟨fun h => ⟨fun hk => hpk hk.symm, h⟩, fun h => h.2⟩

/-- On a uniquely keyed map, membership determines the lookup. -/
theorem lookupVersion_eq_some_of_mem :
    ∀ (m : List (String × String)) (k v : String), (keysOf m).Nodup → (k, v) ∈ m →
      lookupVersion m k = some v := by
  intro m
  induction m with
  | nil => intro k v _ hmem; cases hmem
  | cons p ps ih =>
    intro k v hnd hmem
    simp only [keysOf, List.map_cons, List.nodup_cons] at hnd
    obtain ⟨hp1, hnd2⟩ := hnd
    cases List.mem_cons.mp hmem with
    | inl heq =>
      rw [lookupVersion, ← heq]
      simp
    | inr hmem2 =>
      have hk_in : k ∈ keysOf ps := List.mem_map_of_mem (fun q => q.1) hmem2
      have hpk : ¬ p.1 = k := fun h => hp1 (h ▸ hk_in)
      rw [lookupVersion, if_neg hpk]
      exact ih k v hnd2 hmem2

/-- The per-entry function of the updated/removed half of the diff. -/
def cmpFromBefore (after : List (String × String)) (p : String × String) :
    Option (String × String) :=
  match lookupVersion after p.1 with
  | none => some (p.1, "")
  | some av => if p.2 = av then none else some (p.1, p.2 ++ " -> " ++ av)

/-- The per-entry function of the added half of the diff. -/
def cmpFromAfter (before : List (String × String)) (p : String × String) :
    Option (String × String) :=
  match lookupVersion before p.1 with
  | some _ => none
  | none => some p

/-- The diff splits into its two filterMap halves. -/
theorem compareChartVersions_eq (before after : List (String × String)) :
    compareChartVersions before after =
      before.filterMap (cmpFromBefore after) ++ after.filterMap (cmpFromAfter before) := rfl

/-- Both halves preserve the key of the entry they originate from. -/
theorem cmpFromBefore_key (after : List (String × String)) (p q : String × String)
    (h : cmpFromBefore after p = some q) : q.1 = p.1 := by
  unfold cmpFromBefore at h
  cases hlv : lookupVersion after p.1 with
  | none => simp only [hlv] at h; injection h with h2; rw [← h2]
  | some av =>
    simp only [hlv] at h
    by_cases hv : p.2 = av
    · rw [if_pos hv] at h; cases h
    · rw [if_neg hv] at h; injection h with h2; rw [← h2]

/-- Key preservation for the added half. -/
theorem cmpFromAfter_key (before : List (String × String)) (p q : String × String)
    (h : cmpFromAfter before p = some q) : q.1 = p.1 := by
  unfold cmpFromAfter at h
  cases hlv : lookupVersion before p.1 with
  | some v => simp only [hlv] at h; cases h
  | none => simp only [hlv] at h; injection h with h2; rw [← h2]

/-- The keys of a key-preserving filterMap form a sublist of the keys. -/
theorem keysOf_filterMap_sublist (f : String × String → Option (String × String))
    (hf : ∀ p q, f p = some q → q.1 = p.1) :
    ∀ l : List (String × String), List.Sublist (keysOf (l.filterMap f)) (keysOf l) := by
  intro l
  induction l with
  | nil => simp [keysOf]
  | cons p ps ih =>
    rw [List.filterMap_cons]
    cases hfp : f p with
    | none =>
      simp only [keysOf, List.map_cons]
      exact ih.cons p.1
    | some q =>
      have hq : q.1 = p.1 := hf p q hfp
      simp only [keysOf, List.map_cons]
      rw [hq]
      exact ih.cons₂ p.1

/-- Origin of a key of a key-preserving filterMap. -/
theorem mem_keys_filterMap (f : String × String → Option (String × String))
    (hf : ∀ p q, f p = some q → q.1 = p.1) (l : List (String × String)) (k : String)
    (h : k ∈ keysOf (l.filterMap f)) : ∃ p, p ∈ l ∧ p.1 = k ∧ (f p).isSome := by
  simp only [keysOf, List.mem_map] at h
  obtain ⟨q, hq, hqk⟩ := h
  rw [List.mem_filterMap] at hq
  obtain ⟨p, hp, hfp⟩ := hq
  exact ⟨p, hp, by rw [← hqk, hf p q hfp], by rw [hfp]; rfl⟩

/-- With uniquely keyed inputs the diff is uniquely keyed as well. -/
theorem keysOf_compare_nodup (before after : List (String × String))
    (hb : (keysOf before).Nodup) (ha : (keysOf after).Nodup) :
    (keysOf (compareChartVersions before after)).Nodup := by
  rw [compareChartVersions_eq]
  have hkeys : keysOf (before.filterMap (cmpFromBefore after) ++
      after.filterMap (cmpFromAfter before)) =
      keysOf (before.filterMap (cmpFromBefore after)) ++
      keysOf (after.filterMap (cmpFromAfter before)) := by
    simp [keysOf]
  rw [hkeys]
  refine List.Nodup.append
    (((keysOf_filterMap_sublist _ (cmpFromBefore_key after) before)).nodup hb)
    (((keysOf_filterMap_sublist _ (cmpFromAfter_key before) after)).nodup ha) ?_
  intro k hk1 hk2
  have h1 := mem_keys_filterMap _ (cmpFromBefore_key after) before k hk1
  have h2 := mem_keys_filterMap _ (cmpFromAfter_key before) after k hk2
  obtain ⟨p, hp, hpk, -⟩ := h1
  obtain ⟨q, hq, hqk, hqsome⟩ := h2
  have hkin : k ∈ keysOf before := by
    rw [← hpk]
    exact List.mem_map_of_mem (fun r => r.1) hp
  have hnone : lookupVersion before q.1 = none := by
    unfold cmpFromAfter at hqsome
    cases hlv : lookupVersion before q.1 with
    | none => rfl
    | some v => rw [hlv] at hqsome; cases hqsome
  rw [hqk, lookupVersion_eq_none_iff] at hnone
  exact hnone hkin

/-- A version change of a commonly held name is reported as old -> new. -/
theorem compare_mem_update (before after : List (String × String)) (k vb va : String)
    (hbk : lookupVersion before k = some vb) (hak : lookupVersion after k = some va)
    (hne : vb ≠ va) :
    (k, vb ++ " -> " ++ va) ∈ compareChartVersions before after := by
  rw [compareChartVersions_eq]
  refine List.mem_append_left _ (List.mem_filterMap.mpr ⟨(k, vb),
    mem_of_lookupVersion_eq_some before k vb hbk, ?_⟩)
  unfold cmpFromBefore
  simp only [hak]
  rw [if_neg hne]

/-- A name dropped from the map is reported with the empty string. -/
theorem compare_mem_removed (before after : List (String × String)) (k vb : String)
    (hbk : lookupVersion before k = some vb) (hak : lookupVersion after k = none) :
    (k, "") ∈ compareChartVersions before after := by
  rw [compareChartVersions_eq]
  refine List.mem_append_left _ (List.mem_filterMap.mpr ⟨(k, vb),
    mem_of_lookupVersion_eq_some before k vb hbk, ?_⟩)
  unfold cmpFromBefore
  simp only [hak]

/-- A freshly added name is reported at its version. -/
theorem compare_mem_added (before after : List (String × String)) (k va : String)
    (hbk : lookupVersion before k = none) (hak : lookupVersion after k = some va) :
    (k, va) ∈ compareChartVersions before after := by
  rw [compareChartVersions_eq]
  refine List.mem_append_right _ (List.mem_filterMap.mpr ⟨(k, va),
    mem_of_lookupVersion_eq_some after k va hak, ?_⟩)
  unfold cmpFromAfter
  simp only [hbk]

/-- A name held at the same version on both sides is not reported. -/
theorem not_mem_keys_compare_eq (before after : List (String × String)) (k v : String)
    (hb : (keysOf before).Nodup)
    (hbk : lookupVersion before k = some v) (hak : lookupVersion after k = some v) :
    k ∉ keysOf (compareChartVersions before after) := by
  rw [compareChartVersions_eq]
  intro hk
  have hkeys : keysOf (before.filterMap (cmpFromBefore after) ++
      after.filterMap (cmpFromAfter before)) =
      keysOf (before.filterMap (cmpFromBefore after)) ++
      keysOf (after.filterMap (cmpFromAfter before)) := by
    simp [keysOf]
  rw [hkeys] at hk
  cases List.mem_append.mp hk with
  | inl h1 =>
    obtain ⟨p, hp, hpk, hpsome⟩ := mem_keys_filterMap _ (cmpFromBefore_key after) before k h1
    have hpeq : p = (k, v) := by
      have hlk : lookupVersion before p.1 = some p.2 :=
        lookupVersion_eq_some_of_mem before p.1 p.2 hb (by
          cases p
          exact hp)
      rw [hpk, hbk] at hlk
      injection hlk with h2
      cases p
      simp only at hpk h2
      rw [hpk, h2]
    rw [hpeq] at hpsome
    unfold cmpFromBefore at hpsome
    simp only [hak] at hpsome
    simp at hpsome
  | inr h2 =>
    obtain ⟨q, hq, hqk, hqsome⟩ := mem_keys_filterMap _ (cmpFromAfter_key before) after k h2
    unfold cmpFromAfter at hqsome
    rw [hqk, hbk] at hqsome
    cases hqsome

/-- A name absent on both sides is not reported. -/
theorem not_mem_keys_compare_absent (before after : List (String × String)) (k : String)
    (hbk : lookupVersion before k = none) (hak : lookupVersion after k = none) :
    k ∉ keysOf (compareChartVersions before after) := by
  rw [compareChartVersions_eq]
  intro hk
  have hkeys : keysOf (before.filterMap (cmpFromBefore after) ++
      after.filterMap (cmpFromAfter before)) =
      keysOf (before.filterMap (cmpFromBefore after)) ++
      keysOf (after.filterMap (cmpFromAfter before)) := by
    simp [keysOf]
  rw [hkeys] at hk
  rw [lookupVersion_eq_none_iff] at hbk hak
  cases List.mem_append.mp hk with
  | inl h1 =>
    obtain ⟨p, hp, hpk, -⟩ := mem_keys_filterMap _ (cmpFromBefore_key after) before k h1
    exact hbk (by rw [← hpk]; exact List.mem_map_of_mem (fun r => r.1) hp)
  | inr h2 =>
    obtain ⟨q, hq, hqk, -⟩ := mem_keys_filterMap _ (cmpFromAfter_key before) after k h2
    exact hak (by rw [← hqk]; exact List.mem_map_of_mem (fun r => r.1) hq)

/-- Dropping "old -> " from "old -> new" leaves new. -/
theorem rhsOfEntry_append (vb va : String) : rhsOfEntry vb (vb ++ " -> " ++ va) = va := by
  unfold rhsOfEntry
  have hdata : (vb ++ " -> " ++ va).data = (vb.data ++ (" -> " : String).data) ++ va.data := by
    rw [String.data_append, String.data_append]
  rw [hdata]
  have hlen : vb.length + 4 = (vb.data ++ (" -> " : String).data).length := by
    rw [List.length_append]
    rfl
  rw [hlen, List.drop_left]

/-- An "old -> new" entry is never the empty string. -/
theorem append_arrow_ne_empty (vb va : String) : vb ++ " -> " ++ va ≠ "" := by
  intro h
  have h2 := congrArg String.length h
  rw [String.length_append, String.length_append] at h2
  have h3 : vb.length + 4 + va.length = 0 := h2
  omega

/-- C9 (amended): the diff of a uniquely keyed map against itself is empty;
and applying the diff's reported deltas to before reproduces after pointwise,
provided every version in after is non-empty (a pure addition at the empty
version is encoded as the empty string, which the deltas read as a
deletion). -/
theorem compareChartVersions_roundtrip (before after : List (String × String))
    (hb : (keysOf before).Nodup) (ha : (keysOf after).Nodup)
    (hne : ∀ p ∈ after, p.2 ≠ "") :
    compareChartVersions before before = [] ∧
    ∀ k, lookupVersion (applyChartChanges before (compareChartVersions before after) before) k =
      lookupVersion after k := by
  constructor
  · rw [compareChartVersions_eq]
    have h1 : before.filterMap (cmpFromBefore before) = [] := by
      rw [List.filterMap_eq_nil]
      intro p hp
      unfold cmpFromBefore
      have hlk : lookupVersion before p.1 = some p.2 :=
        lookupVersion_eq_some_of_mem before p.1 p.2 hb (by cases p; exact hp)
      simp [hlk]
    have h2 : before.filterMap (cmpFromAfter before) = [] := by
      rw [List.filterMap_eq_nil]
      intro p hp
      unfold cmpFromAfter
      have hlk : lookupVersion before p.1 = some p.2 :=
        lookupVersion_eq_some_of_mem before p.1 p.2 hb (by cases p; exact hp)
      simp only [hlk]
    rw [h1, h2]
    rfl
  · intro k
    cases hbk : lookupVersion before k with
    | some vb =>
      cases hak : lookupVersion after k with
      | some va =>
        by_cases hv : vb = va
        · subst hv
          have hnotmem := not_mem_keys_compare_eq before after k vb hb hbk hak
          rw [lookupVersion_apply_not_mem before _ before k hnotmem, hbk]
        · have hmem := compare_mem_update before after k vb va hbk hak hv
          have hnd := keysOf_compare_nodup before after hb ha
          rw [lookupVersion_apply_mem before _ before k (vb ++ " -> " ++ va) hnd hmem,
            if_neg (append_arrow_ne_empty vb va)]
          simp only [hbk]
          rw [rhsOfEntry_append]
      | none =>
        have hmem := compare_mem_removed before after k vb hbk hak
        have hnd := keysOf_compare_nodup before after hb ha
        rw [lookupVersion_apply_mem before _ before k "" hnd hmem, if_pos rfl]
    | none =>
      cases hak : lookupVersion after k with
      | some va =>
        have hmem := compare_mem_added before after k va hbk hak
        have hnd := keysOf_compare_nodup before after hb ha
        have hva : va ≠ "" := hne (k, va) (mem_of_lookupVersion_eq_some after k va hak)
        rw [lookupVersion_apply_mem before _ before k va hnd hmem, if_neg hva]
        simp [hbk]
      | none =>
        have hnotmem := not_mem_keys_compare_absent before after k hbk hak
        rw [lookupVersion_apply_not_mem before _ before k hnotmem, hbk]

/-- Counterexample to the literal C9 round trip: a pure addition at the empty
version is reported as the empty-string entry, which the claim's deltas read
as a deletion, so applying them to before loses the entry and does not
reproduce after. -/
theorem compare_roundtrip_empty_version_counterexample :
    compareChartVersions [] [("chart1", "")] = [("chart1", "")] ∧
    applyChartChanges [] (compareChartVersions [] [("chart1", "")]) [] = [] ∧
    lookupVersion (applyChartChanges [] (compareChartVersions [] [("chart1", "")]) [])
        "chart1" ≠
      lookupVersion [("chart1", "")] "chart1" := by
  refine ⟨rfl, rfl, ?_⟩
  decide

/-- Witness for the amended C9 at concrete maps: the self-diff of a map is
empty, and a bumped plus an added chart round-trip correctly. -/
theorem compareChartVersions_roundtrip_witness :
    compareChartVersions [("c1", "1.0.0")] [("c1", "1.0.0")] = [] ∧
    lookupVersion (applyChartChanges [("c1", "1.0.0")]
        (compareChartVersions [("c1", "1.0.0")] [("c1", "1.1.0"), ("c2", "2.0.0")])
        [("c1", "1.0.0")]) "c2" =
      lookupVersion [("c1", "1.1.0"), ("c2", "2.0.0")] "c2" :=
  ⟨(compareChartVersions_roundtrip [("c1", "1.0.0")] [("c1", "1.0.0")]
      (by decide) (by decide) (by decide)).1,
   (compareChartVersions_roundtrip [("c1", "1.0.0")] [("c1", "1.1.0"), ("c2", "2.0.0")]
      (by decide) (by decide) (by decide)).2 "c2"⟩

end Kargo
